import Mathlib

/-!
Shallow embedding of `training_data.py` (PIE-NET training-data preparation).

The embedded core is the label-transfer pipeline:
* `mark_edges_and_corners` — flatten the curves of a feature set, mark corner
  vertices (vertex indices occurring more than once), attach mesh coordinates;
* `transfer_labels` — deduplicate boundary points by vertex index, find each
  one's nearest sampled point (squared Euclidean distance, `np.argmin`), and
  build the labelled output point cloud via a right join against the cloud;
* `_format_pcloud_filename` — derive the output file name.

Coordinates are modelled as integers (the claims under verification concern
counting, ordering and tie-breaking, not floating-point rounding).  Python
exceptions (`IndexError` from an out-of-range vertex lookup, `ValueError` from
`argmin` on an empty array) are modelled with `Except TDError`.
-/

/-- Error outcomes of the embedded pipeline:
`intCastingNaN` models the `IntCastingNaNError` raised by `.astype(int)` in
`mark_edges_and_corners` when `explode()` produced a `NaN` for an empty
`vert_indices` list; `indexOutOfRange` models the `IndexError` raised by
`orig_points[i]` in `_merge_coords` (the spec's `IndexOutOfRange`);
`emptyPointCloud` models the `ValueError` raised by `dist.argmin()` on an
empty point cloud in `_transfer_gt_labels` (the spec's `EmptyPointCloud`). -/
inductive TDError where
  | intCastingNaN
  | indexOutOfRange
  | emptyPointCloud
deriving DecidableEq

/-- A sampled 3D point: one row of the `pcloud` DataFrame (columns x, y, z). -/
structure Point where
  x : Int
  y : Int
  z : Int
deriving DecidableEq

/-- One row of the `curv` DataFrame produced by `mark_edges_and_corners`
(columns curv_id, idx, is_corner, x, y, z): a BoundaryPoint. -/
structure CurvRow where
  curv_id : Nat
  idx : Nat
  is_corner : Bool
  x : Int
  y : Int
  z : Int
deriving DecidableEq

/-- One row of the intermediate frame inside `mark_edges_and_corners`, after
`_mark_corner` but before `_merge_coords` (columns curv_id, idx, is_corner). -/
structure EdgeEntry where
  curv_id : Nat
  idx : Nat
  is_corner : Bool
deriving DecidableEq

/-- One row of the output DataFrame of `transfer_labels`.  After the right
merge with suffixes `("_orig", None)` and the final `assign`, the columns are
curv_id, is_corner, x_orig, y_orig, z_orig, x, y, z, is_edge; the columns
coming from the left (`curv_`) side are `NaN` on unmatched rows, modelled with
`Option`. -/
structure OutRow where
  curv_id : Option Nat
  x_orig : Option Int
  y_orig : Option Int
  z_orig : Option Int
  x : Int
  y : Int
  z : Int
  is_edge : Bool
  is_corner : Bool
deriving DecidableEq

/-- Helper for `explodeCurves`: the first argument is the curve id of the
head curve (the DataFrame index before `reset_index`). -/
def explodeAux : Nat → List (List Nat) → List (Nat × Nat)
  | _, [] => []
  | cid, c :: rest => c.map (fun v => (cid, v)) ++ explodeAux (cid + 1) rest

/-- The flattening performed by `curv_info.vert_indices.explode()` together
with `rename_axis("curv_id").reset_index()`, on feature sets whose curves are
all nonempty: the list of (curve id, vertex index) pairs, one per occurrence,
in curve order.  The empty-curve case, where `explode()` emits `NaN` instead
of vertex indices, is handled in `explode_astype_int`. -/
def explodeCurves (curves : List (List Nat)) : List (Nat × Nat) :=
  explodeAux 0 curves

/-- Embedding of `curv_info.vert_indices.explode().astype(int)`: pandas
`explode()` maps an empty `vert_indices` list to a single `NaN` element, and
the subsequent `.astype(int)` then raises `IntCastingNaNError`, modelled as
`TDError.intCastingNaN`; when every curve is nonempty the exploded series
holds exactly the flattened vertex indices. -/
def explode_astype_int (curves : List (List Nat)) : Except TDError (List (Nat × Nat)) :=
  if curves.any (fun c => c.isEmpty) then Except.error TDError.intCastingNaN
  else Except.ok (explodeCurves curves)

/-- Embedding of `edge.idx.value_counts()[i]`: the number of occurrences of
vertex index `i` in the flattened (curve id, vertex index) sequence. -/
def value_counts (flat : List (Nat × Nat)) (i : Nat) : Nat :=
  (flat.filter (fun t => t.2 == i)).length

/-- Embedding of `_mark_corner`: mark an entry as corner iff its vertex index
occurs strictly more than once in the whole flattened sequence. -/
def _mark_corner (flat : List (Nat × Nat)) : List EdgeEntry :=
  flat.map (fun t => ⟨t.1, t.2, decide (1 < value_counts flat t.2)⟩)

/-- Embedding of `_merge_coords`: attach the mesh coordinate at each entry's
vertex index; an out-of-range index raises (numpy `IndexError`), modelled as
`TDError.indexOutOfRange`. -/
def _merge_coords : List EdgeEntry → List Point → Except TDError (List CurvRow)
  | [], _ => Except.ok []
  | e :: rest, orig_points =>
    match orig_points[e.idx]? with
    | some p =>
      match _merge_coords rest orig_points with
      | Except.ok rows =>
          Except.ok (⟨e.curv_id, e.idx, e.is_corner, p.x, p.y, p.z⟩ :: rows)
      | Except.error err => Except.error err
    | none => Except.error TDError.indexOutOfRange

/-- Embedding of `mark_edges_and_corners(mesh, feat)`: `orig_points` is the
mesh's vertex matrix, `curves` the `vert_indices` lists of `feat["curves"]`.
The explode-and-cast step runs first and raises on an empty curve, before
corner marking and coordinate attachment. -/
def mark_edges_and_corners (orig_points : List Point) (curves : List (List Nat)) :
    Except TDError (List CurvRow) :=
  match explode_astype_int curves with
  | Except.ok flat => _merge_coords (_mark_corner flat) orig_points
  | Except.error err => Except.error err

/-- Squared Euclidean distance between a boundary point and a sampled point,
as computed in `_transfer_gt_labels` (`np.square(dist_vects).sum(axis=1)`). -/
def sqDist (row : CurvRow) (p : Point) : Int :=
  (p.x - row.x) ^ 2 + (p.y - row.y) ^ 2 + (p.z - row.z) ^ 2

/-- Scanning helper for `argmin`: `i` is the index of the head of the
remaining list, `bestVal` the smallest value seen so far, `best` its index.
A later value replaces the incumbent only when strictly smaller, so the first
occurrence of the minimum wins, as in `np.argmin`. -/
def argminAux : List Int → Nat → Int → Nat → Nat
  | [], _, _, best => best
  | a :: rest, i, bestVal, best =>
    if a < bestVal then argminAux rest (i + 1) a i
    else argminAux rest (i + 1) bestVal best

/-- Embedding of `np.argmin` on a list of values: index of the first
occurrence of the minimum.  On the empty list numpy raises `ValueError`;
`transfer_labels` reaches `argmin` only on nonempty input (the empty case is
mapped to `TDError.emptyPointCloud` there), so the value at `[]` is arbitrary. -/
def argmin : List Int → Nat
  | [] => 0
  | a :: rest => argminAux rest 1 a 0

/-- Embedding of `_transfer_gt_labels`: index into `pcloud` of the nearest
sampled point to `row`, by squared Euclidean distance, first minimum wins. -/
def _transfer_gt_labels (row : CurvRow) (pcloud : List Point) : Nat :=
  argmin (pcloud.map (fun p => sqDist row p))

/-- Recursion for `drop_duplicates`: `seen` is the set of vertex indices
already kept. -/
def dropDupAux : List Nat → List CurvRow → List CurvRow
  | _, [] => []
  | seen, r :: rest =>
    if r.idx ∈ seen then dropDupAux seen rest
    else r :: dropDupAux (r.idx :: seen) rest

/-- Embedding of `curv.drop_duplicates(subset=["idx"])` (pandas default
`keep="first"`): keep the first row for each distinct vertex index, in order. -/
def drop_duplicates (curv : List CurvRow) : List CurvRow :=
  dropDupAux [] curv

/-- The deduplicated boundary points whose nearest sampled point is `j`: the
left-side rows that the right join pairs with right row `j`. -/
def matchesAt (curv_ : List CurvRow) (pcloud : List Point) (j : Nat) : List CurvRow :=
  curv_.filter (fun b => _transfer_gt_labels b pcloud == j)

/-- The output rows that the right merge produces for right row `j` holding
sampled point `p`: one all-false row when no boundary point matched `j`
(left columns `NaN`), otherwise one row per matching boundary point, carrying
that boundary point's left columns, `is_edge = is_corner.notna() = true` and
`is_corner = (is_corner == True)`. -/
def transferGroup (curv_ : List CurvRow) (pcloud : List Point) (j : Nat) (p : Point) :
    List OutRow :=
  if (matchesAt curv_ pcloud j).isEmpty then
    [⟨none, none, none, none, p.x, p.y, p.z, false, false⟩]
  else (matchesAt curv_ pcloud j).map (fun b =>
    ⟨some b.curv_id, some b.x, some b.y, some b.z, p.x, p.y, p.z, true, b.is_corner⟩)

/-- The body of the right merge: concatenate the groups of all right rows in
right-frame order (`how="right"` preserves the right frame's row order; the
rows matching one right key appear in left order).  The second list is the
remaining suffix of the cloud, `j` the index of its head in the full cloud. -/
def buildOutAux (curv_ : List CurvRow) (pcloud : List Point) :
    List Point → Nat → List OutRow
  | [], _ => []
  | p :: rest, j => transferGroup curv_ pcloud j p ++ buildOutAux curv_ pcloud rest (j + 1)

/-- Embedding of `transfer_labels`: deduplicate by vertex index, then build
the merged output.  When the deduplicated list is nonempty and the cloud is
empty, `_transfer_gt_labels` calls `argmin` on an empty array and numpy
raises, modelled as `TDError.emptyPointCloud`; with no boundary points the
per-row apply never runs and the merge yields one unmatched row per sampled
point. -/
def transfer_labels (curv : List CurvRow) (pcloud : List Point) :
    Except TDError (List OutRow) :=
  if (drop_duplicates curv).isEmpty = false ∧ pcloud.isEmpty = true then
    Except.error TDError.emptyPointCloud
  else
    Except.ok (buildOutAux (drop_duplicates curv) pcloud pcloud 0)

/-- Column order of the DataFrame written by `write_pcloud`.  Tracing
`transfer_labels`: `curv_` has columns curv_id, idx, is_corner, x, y, z;
`assign` appends pcloud_df_idx; the merge with suffixes `("_orig", None)`
renames the overlapping left columns x, y, z to x_orig, y_orig, z_orig and
appends the right columns x, y, z; `drop` removes idx and pcloud_df_idx; the
final `assign` rewrites is_corner in place and appends the new column
is_edge. -/
def output_columns : List String :=
  ["curv_id", "is_corner", "x_orig", "y_orig", "z_orig", "x", "y", "z", "is_edge"]

/-- Embedding of `_format_pcloud_filename`, over the file name's character
list: Python's `re.match(r"([^_]+)_", name)` succeeds iff the name starts
with at least one non-underscore character followed by an underscore, and
group 1 is the maximal initial run of non-underscore characters; on a failed
match, `.group(1)` raises `AttributeError`, modelled as `none`. -/
def _format_pcloud_filename (name : List Char) : Option (List Char) :=
  let pfx := name.takeWhile (fun ch => ch != '_')
  if pfx.length ≠ 0 ∧ pfx.length < name.length then
    some (pfx ++ "_pcloud_points.parq".toList)
  else none

/-- Reference formulation of the deduplication step, following the spec's
words for comparison with `drop_duplicates`: the subsequence of entries whose
vertex_index has not occurred among the strictly earlier entries, in their
original order. -/
def specDedup (l : List CurvRow) : List CurvRow :=
  (List.range l.length).filterMap (fun k =>
    match l[k]? with
    | some r => if r.idx ∈ (l.take k).map CurvRow.idx then none else some r
    | none => none)

/-! ## Helper lemmas -/

theorem argminAux_spec (rest : List Int) : ∀ (i best : Nat) (bestVal : Int),
    (argminAux rest i bestVal best = best ∧
       ∀ (k : Nat) (hk : k < rest.length), bestVal ≤ rest.get ⟨k, hk⟩) ∨
    (∃ (k : Nat) (hk : k < rest.length),
       argminAux rest i bestVal best = i + k ∧
       rest.get ⟨k, hk⟩ < bestVal ∧
       (∀ (m : Nat) (hm : m < rest.length), rest.get ⟨k, hk⟩ ≤ rest.get ⟨m, hm⟩) ∧
       (∀ (m : Nat) (hm : m < rest.length), m < k → rest.get ⟨k, hk⟩ < rest.get ⟨m, hm⟩)) := by
  induction rest with
  | nil =>
    intro i best bestVal
    left
    exact ⟨rfl, fun k hk => absurd hk (by simp)⟩
  | cons a rest ih =>
    intro i best bestVal
    by_cases h : a < bestVal
    · rcases ih (i + 1) i a with ⟨he, hall⟩ | ⟨k, hk, he, hlt, hle, hstrict⟩
      · right
        refine ⟨0, by simp, ?_, ?_, ?_, ?_⟩
        · simp only [argminAux, if_pos h, he, Nat.add_zero]
        · exact h
        · intro m hm
          cases m with
          | zero => exact le_refl a
          | succ m => exact hall m (Nat.lt_of_succ_lt_succ hm)
        · intro m hm hm0
          exact absurd hm0 (Nat.not_lt_zero m)
      · right
        refine ⟨k + 1, Nat.succ_lt_succ hk, ?_, ?_, ?_, ?_⟩
        · simp only [argminAux, if_pos h, he]
          omega
        · exact lt_trans hlt h
        · intro m hm
          cases m with
          | zero => exact le_of_lt hlt
          | succ m => exact hle m (Nat.lt_of_succ_lt_succ hm)
        · intro m hm hmk
          cases m with
          | zero => exact hlt
          | succ m => exact hstrict m (Nat.lt_of_succ_lt_succ hm) (Nat.lt_of_succ_lt_succ hmk)
    · have hba : bestVal ≤ a := le_of_not_lt h
      rcases ih (i + 1) best bestVal with ⟨he, hall⟩ | ⟨k, hk, he, hlt, hle, hstrict⟩
      · left
        refine ⟨by simp only [argminAux, if_neg h, he], ?_⟩
        intro k hk
        cases k with
        | zero => exact hba
        | succ k => exact hall k (Nat.lt_of_succ_lt_succ hk)
      · right
        refine ⟨k + 1, Nat.succ_lt_succ hk, ?_, hlt, ?_, ?_⟩
        · simp only [argminAux, if_neg h, he]
          omega
        · intro m hm
          cases m with
          | zero => exact le_of_lt (lt_of_lt_of_le hlt hba)
          | succ m => exact hle m (Nat.lt_of_succ_lt_succ hm)
        · intro m hm hmk
          cases m with
          | zero => exact lt_of_lt_of_le hlt hba
          | succ m => exact hstrict m (Nat.lt_of_succ_lt_succ hm) (Nat.lt_of_succ_lt_succ hmk)

theorem argmin_spec (d : List Int) (hd : d ≠ []) :
    ∃ h : argmin d < d.length,
      (∀ (j : Nat) (hj : j < d.length), d.get ⟨argmin d, h⟩ ≤ d.get ⟨j, hj⟩) ∧
      (∀ (j : Nat) (hj : j < d.length),
        d.get ⟨j, hj⟩ = d.get ⟨argmin d, h⟩ → argmin d ≤ j) := by
  cases d with
  | nil => exact absurd rfl hd
  | cons a rest =>
    rcases argminAux_spec rest 1 0 a with ⟨he, hall⟩ | ⟨k, hk, he, hlt, hle, hstrict⟩
    · have ha : argmin (a :: rest) = 0 := he
      have hlen : argmin (a :: rest) < (a :: rest).length := by simp [ha]
      have hget : (a :: rest).get ⟨argmin (a :: rest), hlen⟩ = a := by
        simp only [ha]
        rfl
      refine ⟨hlen, ?_, ?_⟩
      · intro j hj
        rw [hget]
        cases j with
        | zero => exact le_refl _
        | succ j => exact hall j (Nat.lt_of_succ_lt_succ hj)
      · intro j hj _
        rw [ha]
        exact Nat.zero_le j
    · have ha : argmin (a :: rest) = 1 + k := he
      have hlen : argmin (a :: rest) < (a :: rest).length := by
        simp only [ha, List.length_cons]
        omega
      have hget : (a :: rest).get ⟨argmin (a :: rest), hlen⟩ = rest.get ⟨k, hk⟩ := by
        have : argmin (a :: rest) = k + 1 := by omega
        simp only [this]
        rfl
      refine ⟨hlen, ?_, ?_⟩
      · intro j hj
        rw [hget]
        cases j with
        | zero => exact le_of_lt hlt
        | succ j => exact hle j (Nat.lt_of_succ_lt_succ hj)
      · intro j hj heq
        rw [hget] at heq
        by_contra hcon
        push_neg at hcon
        rw [ha] at hcon
        cases j with
        | zero =>
          have ha0 : (a :: rest).get ⟨0, hj⟩ = a := rfl
          rw [ha0] at heq
          exact absurd heq.symm (ne_of_lt hlt)
        | succ j =>
          have hjk : j < k := by omega
          have hs : (a :: rest).get ⟨j + 1, hj⟩ = rest.get ⟨j, Nat.lt_of_succ_lt_succ hj⟩ := rfl
          rw [hs] at heq
          exact absurd heq (ne_of_gt (hstrict j (Nat.lt_of_succ_lt_succ hj) hjk))

theorem dropDupAux_sublist : ∀ (l : List CurvRow) (seen : List Nat),
    List.Sublist (dropDupAux seen l) l := by
  intro l
  induction l with
  | nil => intro seen; simp [dropDupAux]
  | cons r rest ih =>
    intro seen
    by_cases h : r.idx ∈ seen
    · simp only [dropDupAux, if_pos h]
      exact (ih seen).cons r
    · simp only [dropDupAux, if_neg h]
      exact (ih (r.idx :: seen)).cons₂ r

theorem mem_dropDupAux_not_seen : ∀ (l : List CurvRow) (seen : List Nat) (r : CurvRow),
    r ∈ dropDupAux seen l → r.idx ∉ seen := by
  intro l
  induction l with
  | nil => intro seen r h; simp [dropDupAux] at h
  | cons q rest ih =>
    intro seen r h
    by_cases hq : q.idx ∈ seen
    · simp only [dropDupAux, if_pos hq] at h
      exact ih seen r h
    · simp only [dropDupAux, if_neg hq] at h
      rcases List.mem_cons.mp h with rfl | h2
      · exact hq
      · intro hseen
        exact ih (q.idx :: seen) r h2 (List.mem_cons_of_mem _ hseen)

theorem nodup_idx_dropDupAux : ∀ (l : List CurvRow) (seen : List Nat),
    ((dropDupAux seen l).map CurvRow.idx).Nodup := by
  intro l
  induction l with
  | nil => intro seen; simp [dropDupAux]
  | cons q rest ih =>
    intro seen
    by_cases hq : q.idx ∈ seen
    · simp only [dropDupAux, if_pos hq]
      exact ih seen
    · simp only [dropDupAux, if_neg hq, List.map_cons, List.nodup_cons]
      refine ⟨?_, ih (q.idx :: seen)⟩
      intro hmem
      rcases List.mem_map.mp hmem with ⟨r, hr, hidx⟩
      exact mem_dropDupAux_not_seen rest (q.idx :: seen) r hr
        (hidx ▸ List.mem_cons_self q.idx seen)

theorem drop_duplicates_nodup_idx (curv : List CurvRow) :
    ((drop_duplicates curv).map CurvRow.idx).Nodup :=
  nodup_idx_dropDupAux curv []

theorem mem_transferGroup (c : List CurvRow) (p0 : List Point) (j : Nat) (p : Point)
    (r : OutRow) (h : r ∈ transferGroup c p0 j p) :
    (matchesAt c p0 j = [] ∧
       r = ⟨none, none, none, none, p.x, p.y, p.z, false, false⟩) ∨
    (∃ b ∈ matchesAt c p0 j,
       r = ⟨some b.curv_id, some b.x, some b.y, some b.z, p.x, p.y, p.z, true, b.is_corner⟩) := by
  unfold transferGroup at h
  rcases hms : matchesAt c p0 j with _ | ⟨b, t⟩
  · rw [hms] at h
    simp at h
    exact Or.inl ⟨rfl, h⟩
  · rw [hms] at h
    simp only [List.isEmpty_cons, List.map_cons] at h
    right
    rcases List.mem_cons.mp h with rfl | h2
    · exact ⟨b, List.mem_cons_self b t, rfl⟩
    · rcases List.mem_map.mp h2 with ⟨b2, hb2, rfl⟩
      exact ⟨b2, List.mem_cons_of_mem b hb2, rfl⟩

theorem transferGroup_ne_nil (c : List CurvRow) (p0 : List Point) (j : Nat) (p : Point) :
    transferGroup c p0 j p ≠ [] := by
  unfold transferGroup
  rcases hms : matchesAt c p0 j with _ | ⟨b, t⟩ <;> simp

theorem length_transferGroup_of_le_one (c : List CurvRow) (p0 : List Point) (j : Nat) (p : Point)
    (h : (matchesAt c p0 j).length ≤ 1) :
    (transferGroup c p0 j p).length = 1 := by
  unfold transferGroup
  rcases hms : matchesAt c p0 j with _ | ⟨b, t⟩
  · simp
  · rw [hms] at h
    simp only [List.length_cons] at h
    have ht : t = [] := List.eq_nil_of_length_eq_zero (by omega)
    subst ht
    simp

theorem mem_buildOutAux (c : List CurvRow) (p0 : List Point) :
    ∀ (l : List Point) (k : Nat) (r : OutRow),
    r ∈ buildOutAux c p0 l k → ∃ (j : Nat) (p : Point), p ∈ l ∧ r ∈ transferGroup c p0 j p := by
  intro l
  induction l with
  | nil => intro k r h; simp [buildOutAux] at h
  | cons p rest ih =>
    intro k r h
    simp only [buildOutAux, List.mem_append] at h
    rcases h with h | h
    · exact ⟨k, p, List.mem_cons_self p rest, h⟩
    · rcases ih (k + 1) r h with ⟨j, p2, hp2, hr⟩
      exact ⟨j, p2, List.mem_cons_of_mem p hp2, hr⟩

theorem group_mem_buildOutAux (c : List CurvRow) (p0 : List Point) :
    ∀ (l : List Point) (k j : Nat) (hj : j < l.length) (r : OutRow),
    r ∈ transferGroup c p0 (k + j) (l.get ⟨j, hj⟩) → r ∈ buildOutAux c p0 l k := by
  intro l
  induction l with
  | nil => intro k j hj; simp at hj
  | cons p rest ih =>
    intro k j hj r h
    simp only [buildOutAux, List.mem_append]
    cases j with
    | zero =>
      left
      simpa using h
    | succ j =>
      right
      apply ih (k + 1) j (Nat.lt_of_succ_lt_succ hj) r
      have hadd : k + (j + 1) = (k + 1) + j := by omega
      rw [hadd] at h
      exact h

theorem exists_mem_buildOutAux (c : List CurvRow) (p0 : List Point) :
    ∀ (l : List Point) (k : Nat) (p : Point), p ∈ l →
    ∃ r ∈ buildOutAux c p0 l k, r.x = p.x ∧ r.y = p.y ∧ r.z = p.z := by
  intro l
  induction l with
  | nil => intro k p hp; cases hp
  | cons q rest ih =>
    intro k p hp
    rcases List.mem_cons.mp hp with rfl | hp2
    · rcases hg : transferGroup c p0 k p with _ | ⟨r, t⟩
      · exact absurd hg (transferGroup_ne_nil c p0 k p)
      · have hr : r ∈ transferGroup c p0 k p := by rw [hg]; exact List.mem_cons_self r t
        have hco := mem_transferGroup c p0 k p r hr
        refine ⟨r, ?_, ?_⟩
        · simp only [buildOutAux, List.mem_append]
          exact Or.inl hr
        · rcases hco with ⟨_, rfl⟩ | ⟨b, _, rfl⟩ <;> exact ⟨rfl, rfl, rfl⟩
    · rcases ih (k + 1) p hp2 with ⟨r, hr, hco⟩
      refine ⟨r, ?_, hco⟩
      simp only [buildOutAux, List.mem_append]
      exact Or.inr hr

theorem buildOutAux_length_of_le_one (c : List CurvRow) (p0 : List Point)
    (hone : ∀ j, (matchesAt c p0 j).length ≤ 1) :
    ∀ (l : List Point) (k : Nat), (buildOutAux c p0 l k).length = l.length := by
  intro l
  induction l with
  | nil => intro k; rfl
  | cons p rest ih =>
    intro k
    simp only [buildOutAux, List.length_append, ih (k + 1), List.length_cons,
      length_transferGroup_of_le_one c p0 k p (hone k)]
    omega

theorem matchesAt_length_le_one (curv : List CurvRow) (p0 : List Point)
    (hinj : ∀ b1 ∈ drop_duplicates curv, ∀ b2 ∈ drop_duplicates curv,
      _transfer_gt_labels b1 p0 = _transfer_gt_labels b2 p0 → b1 = b2) (j : Nat) :
    (matchesAt (drop_duplicates curv) p0 j).length ≤ 1 := by
  rcases hms : matchesAt (drop_duplicates curv) p0 j with _ | ⟨b1, t⟩
  · simp
  · rcases t with _ | ⟨b2, t2⟩
    · simp
    · exfalso
      have hmem1 : b1 ∈ matchesAt (drop_duplicates curv) p0 j := by
        rw [hms]; exact List.mem_cons_self _ _
      have hmem2 : b2 ∈ matchesAt (drop_duplicates curv) p0 j := by
        rw [hms]; exact List.mem_cons_of_mem _ (List.mem_cons_self _ _)
      have h1 := List.mem_filter.mp hmem1
      have h2 := List.mem_filter.mp hmem2
      have e1 : _transfer_gt_labels b1 p0 = j := by simpa using h1.2
      have e2 : _transfer_gt_labels b2 p0 = j := by simpa using h2.2
      have hbb : b1 = b2 := hinj b1 h1.1 b2 h2.1 (by rw [e1, e2])
      have hsub : List.Sublist (matchesAt (drop_duplicates curv) p0 j) (drop_duplicates curv) :=
        List.filter_sublist _
      have hnodup : ((matchesAt (drop_duplicates curv) p0 j).map CurvRow.idx).Nodup :=
        List.Nodup.sublist (List.Sublist.map CurvRow.idx hsub) (drop_duplicates_nodup_idx curv)
      rw [hms] at hnodup
      simp only [List.map_cons, List.nodup_cons, List.mem_cons] at hnodup
      exact hnodup.1 (Or.inl (by rw [hbb]))

theorem transfer_labels_eq_ok (curv : List CurvRow) (pcloud : List Point) (hp : pcloud ≠ []) :
    transfer_labels curv pcloud =
      Except.ok (buildOutAux (drop_duplicates curv) pcloud pcloud 0) := by
  unfold transfer_labels
  rw [if_neg]
  intro hand
  exact hp (List.isEmpty_iff.mp hand.2)

theorem buildOutAux_nil_curv (p0 : List Point) : ∀ (l : List Point) (k : Nat),
    buildOutAux [] p0 l k =
      l.map (fun p => ⟨none, none, none, none, p.x, p.y, p.z, false, false⟩) := by
  intro l
  induction l with
  | nil => intro k; rfl
  | cons p rest ih =>
    intro k
    simp only [buildOutAux, List.map_cons]
    rw [ih (k + 1)]
    rfl

theorem dropDupAux_eq_spec : ∀ (l : List CurvRow) (seen : List Nat),
    dropDupAux seen l = (List.range l.length).filterMap (fun k =>
      match l[k]? with
      | some r =>
          if r.idx ∈ seen ∨ r.idx ∈ ((l.take k).map CurvRow.idx) then none else some r
      | none => none) := by
  intro l
  induction l with
  | nil => intro seen; rfl
  | cons q rest ih =>
    intro seen
    rw [List.length_cons, List.range_succ_eq_map, List.filterMap_cons, List.filterMap_map]
    by_cases hq : q.idx ∈ seen
    · simp only [List.getElem?_cons_zero, List.take_zero, List.map_nil, List.not_mem_nil,
        or_false, if_pos hq]
      simp only [dropDupAux, if_pos hq]
      rw [ih seen]
      apply List.filterMap_congr
      intro k _
      simp only [Function.comp_apply, List.getElem?_cons_succ, List.take_succ_cons,
        List.map_cons, List.mem_cons]
      cases hrk : rest[k]? with
      | none => rfl
      | some r =>
        apply if_congr _ rfl rfl
        constructor
        · rintro (h | h)
          · exact Or.inl h
          · exact Or.inr (Or.inr h)
        · rintro (h | h | h)
          · exact Or.inl h
          · exact Or.inl (h ▸ hq)
          · exact Or.inr h
    · simp only [List.getElem?_cons_zero, List.take_zero, List.map_nil, List.not_mem_nil,
        or_false, if_neg hq]
      simp only [dropDupAux, if_neg hq]
      rw [ih (q.idx :: seen)]
      congr 1
      apply List.filterMap_congr
      intro k _
      simp only [Function.comp_apply, List.getElem?_cons_succ, List.take_succ_cons,
        List.map_cons, List.mem_cons]
      cases hrk : rest[k]? with
      | none => rfl
      | some r =>
        apply if_congr _ rfl rfl
        tauto

theorem merge_coords_ok_mem : ∀ (edge : List EdgeEntry) (pts : List Point)
    (rows : List CurvRow), _merge_coords edge pts = Except.ok rows →
    ∀ r ∈ rows, ∃ e ∈ edge, r.idx = e.idx ∧ r.is_corner = e.is_corner := by
  intro edge
  induction edge with
  | nil =>
    intro pts rows h r hr
    simp only [_merge_coords, Except.ok.injEq] at h
    subst h
    cases hr
  | cons e rest ih =>
    intro pts rows h r hr
    unfold _merge_coords at h
    cases hp : pts[e.idx]? with
    | none =>
      rw [hp] at h
      cases h
    | some p =>
      rw [hp] at h
      cases hrec : _merge_coords rest pts with
      | error err =>
        rw [hrec] at h
        cases h
      | ok rows2 =>
        rw [hrec] at h
        simp only [Except.ok.injEq] at h
        subst h
        rcases List.mem_cons.mp hr with rfl | hr2
        · exact ⟨e, List.mem_cons_self e rest, rfl, rfl⟩
        · rcases ih pts rows2 hrec r hr2 with ⟨e2, he2, hco⟩
          exact ⟨e2, List.mem_cons_of_mem e he2, hco⟩

theorem merge_coords_error_of_oob : ∀ (edge : List EdgeEntry) (pts : List Point),
    (∃ e ∈ edge, pts.length ≤ e.idx) →
    _merge_coords edge pts = Except.error TDError.indexOutOfRange := by
  intro edge
  induction edge with
  | nil =>
    rintro pts ⟨e, he, _⟩
    cases he
  | cons e0 rest ih =>
    rintro pts ⟨e, he, hlen⟩
    unfold _merge_coords
    rcases List.mem_cons.mp he with rfl | he2
    · rw [List.getElem?_eq_none hlen]
    · cases hp : pts[e0.idx]? with
      | none => rfl
      | some p => rw [ih pts ⟨e, he2, hlen⟩]

theorem mem_explodeAux : ∀ (curves : List (List Nat)) (k : Nat) (c : List Nat),
    c ∈ curves → ∀ i ∈ c, ∃ cid, (cid, i) ∈ explodeAux k curves := by
  intro curves
  induction curves with
  | nil => intro k c hc; cases hc
  | cons c0 rest ih =>
    intro k c hc i hi
    rcases List.mem_cons.mp hc with rfl | hc2
    · exact ⟨k, List.mem_append_left _ (List.mem_map_of_mem _ hi)⟩
    · rcases ih (k + 1) c hc2 i hi with ⟨cid, hcid⟩
      exact ⟨cid, List.mem_append_right _ hcid⟩

theorem mem_mark_corner (flat : List (Nat × Nat)) (e : EdgeEntry)
    (he : e ∈ _mark_corner flat) :
    e.is_corner = decide (1 < value_counts flat e.idx) := by
  rcases List.mem_map.mp he with ⟨t, _, rfl⟩
  rfl

theorem mark_corner_mem_of_mem (flat : List (Nat × Nat)) (t : Nat × Nat) (ht : t ∈ flat) :
    (⟨t.1, t.2, decide (1 < value_counts flat t.2)⟩ : EdgeEntry) ∈ _mark_corner flat :=
  List.mem_map_of_mem _ ht

theorem matchesAt_eq_nil_iff (c : List CurvRow) (p0 : List Point) (j : Nat) :
    matchesAt c p0 j = [] ↔ ¬ ∃ b ∈ c, _transfer_gt_labels b p0 = j := by
  unfold matchesAt
  rw [List.filter_eq_nil_iff]
  constructor
  · rintro h ⟨b, hb, he⟩
    have hb2 := h b hb
    simp only [beq_iff_eq] at hb2
    exact hb2 he
  · intro h b hb
    simp only [beq_iff_eq]
    exact fun he => h ⟨b, hb, he⟩

/-! ## Claims -/

/-- C3: for every BoundaryPoint and every nonempty PointCloud,
`_transfer_gt_labels` returns an in-range index of a point minimizing the
squared Euclidean distance on (x, y, z) over the entire cloud, and when
several points attain the minimum it returns the lowest such index (the first
occurrence of the minimum). -/
theorem transfer_gt_labels_nearest (row : CurvRow) (pcloud : List Point)
    (hp : pcloud ≠ []) :
    _transfer_gt_labels row pcloud < pcloud.length ∧
    (∀ (j : Nat) (dn dj : Point), pcloud[_transfer_gt_labels row pcloud]? = some dn →
      pcloud[j]? = some dj → sqDist row dn ≤ sqDist row dj) ∧
    (∀ (j : Nat) (dn dj : Point), pcloud[_transfer_gt_labels row pcloud]? = some dn →
      pcloud[j]? = some dj → sqDist row dj = sqDist row dn →
      _transfer_gt_labels row pcloud ≤ j) := by
  have hd : (pcloud.map (fun p => sqDist row p)) ≠ [] := by
    intro h
    exact hp (List.map_eq_nil_iff.mp h)
  rcases argmin_spec _ hd with ⟨h, hmin, hfirst⟩
  have hlen : (pcloud.map (fun p => sqDist row p)).length = pcloud.length :=
    List.length_map _ _
  have hn : _transfer_gt_labels row pcloud < pcloud.length := by
    have h2 := h
    rw [hlen] at h2
    exact h2
  have hgetmap : ∀ (i : Nat) (hi : i < pcloud.length) (q : Point), pcloud[i]? = some q →
      ∀ (him : i < (pcloud.map (fun p => sqDist row p)).length),
      (pcloud.map (fun p => sqDist row p)).get ⟨i, him⟩ = sqDist row q := by
    intro i hi q hq him
    have hgi : pcloud.get ⟨i, hi⟩ = q := by
      have h3 := (List.getElem?_eq_some.mp hq).2
      simpa using h3
    simp only [List.get_eq_getElem, List.getElem_map]
    exact congrArg (fun p => sqDist row p) hgi
  refine ⟨hn, ?_, ?_⟩
  · intro j dn dj hdn hdj
    have hjlen : j < pcloud.length := (List.getElem?_eq_some.mp hdj).1
    have hle := hmin j (by rw [hlen]; exact hjlen)
    rw [hgetmap (argmin (List.map (fun p => sqDist row p) pcloud)) hn dn hdn h,
      hgetmap j hjlen dj hdj (by rw [hlen]; exact hjlen)] at hle
    exact hle
  · intro j dn dj hdn hdj heq
    have hjlen : j < pcloud.length := (List.getElem?_eq_some.mp hdj).1
    apply hfirst j (by rw [hlen]; exact hjlen)
    rw [hgetmap (argmin (List.map (fun p => sqDist row p) pcloud)) hn dn hdn h,
      hgetmap j hjlen dj hdj (by rw [hlen]; exact hjlen)]
    exact heq

/-- Witness for C3 at the spec's own test vector: a boundary point at the
origin and a cloud with squared distances 5, 1, 3 selects index 1. -/
theorem transfer_gt_labels_nearest_witness :
    _transfer_gt_labels ⟨0, 0, false, 0, 0, 0⟩ [⟨2, 1, 0⟩, ⟨1, 0, 0⟩, ⟨1, 1, 1⟩] = 1 ∧
    (_transfer_gt_labels ⟨0, 0, false, 0, 0, 0⟩ [⟨2, 1, 0⟩, ⟨1, 0, 0⟩, ⟨1, 1, 1⟩] <
        ([⟨2, 1, 0⟩, ⟨1, 0, 0⟩, ⟨1, 1, 1⟩] : List Point).length ∧
      (∀ (j : Nat) (dn dj : Point),
        ([⟨2, 1, 0⟩, ⟨1, 0, 0⟩, ⟨1, 1, 1⟩] :
            List Point)[_transfer_gt_labels ⟨0, 0, false, 0, 0, 0⟩
              [⟨2, 1, 0⟩, ⟨1, 0, 0⟩, ⟨1, 1, 1⟩]]? = some dn →
        ([⟨2, 1, 0⟩, ⟨1, 0, 0⟩, ⟨1, 1, 1⟩] : List Point)[j]? = some dj →
        sqDist ⟨0, 0, false, 0, 0, 0⟩ dn ≤ sqDist ⟨0, 0, false, 0, 0, 0⟩ dj) ∧
      (∀ (j : Nat) (dn dj : Point),
        ([⟨2, 1, 0⟩, ⟨1, 0, 0⟩, ⟨1, 1, 1⟩] :
            List Point)[_transfer_gt_labels ⟨0, 0, false, 0, 0, 0⟩
              [⟨2, 1, 0⟩, ⟨1, 0, 0⟩, ⟨1, 1, 1⟩]]? = some dn →
        ([⟨2, 1, 0⟩, ⟨1, 0, 0⟩, ⟨1, 1, 1⟩] : List Point)[j]? = some dj →
        sqDist ⟨0, 0, false, 0, 0, 0⟩ dj = sqDist ⟨0, 0, false, 0, 0, 0⟩ dn →
        _transfer_gt_labels ⟨0, 0, false, 0, 0, 0⟩ [⟨2, 1, 0⟩, ⟨1, 0, 0⟩, ⟨1, 1, 1⟩] ≤ j)) :=
  ⟨by decide, transfer_gt_labels_nearest ⟨0, 0, false, 0, 0, 0⟩
    [⟨2, 1, 0⟩, ⟨1, 0, 0⟩, ⟨1, 1, 1⟩] (by decide)⟩

/-- C10: deduplication by vertex index keeps exactly the first-seen entry for
each distinct vertex index: `drop_duplicates` equals the subsequence of
entries whose vertex index does not occur among the strictly earlier entries,
in their original order (and is in particular a sublist of the input). -/
theorem drop_duplicates_spec (l : List CurvRow) :
    drop_duplicates l = specDedup l ∧ List.Sublist (drop_duplicates l) l := by
  constructor
  · unfold drop_duplicates specDedup
    rw [dropDupAux_eq_spec l []]
    apply List.filterMap_congr
    intro k _
    cases hrk : l[k]? with
    | none => rfl
    | some r =>
      apply if_congr _ rfl rfl
      simp
  · exact dropDupAux_sublist l []

/-- C7: with a nonempty BoundaryPoint list and an empty PointCloud,
`transfer_labels` fails with `EmptyPointCloud` (numpy's `argmin` raises on the
empty distance array) and produces no output. -/
theorem empty_point_cloud_fails (curv : List CurvRow) (hc : curv ≠ []) :
    transfer_labels curv [] = Except.error TDError.emptyPointCloud := by
  unfold transfer_labels
  rw [if_pos]
  constructor
  · cases curv with
    | nil => exact absurd rfl hc
    | cons r rest => simp [drop_duplicates, dropDupAux]
  · rfl

/-- Witness for C7 at a one-row boundary list. -/
theorem empty_point_cloud_fails_witness :
    transfer_labels [⟨0, 7, true, 5, 5, 5⟩] [] = Except.error TDError.emptyPointCloud :=
  empty_point_cloud_fails [⟨0, 7, true, 5, 5, 5⟩] (by decide)

/-- C6: with an empty BoundaryPoint list and a PointCloud of size N ≥ 1,
`transfer_labels` succeeds and returns N rows, all with `is_edge = false` and
`is_corner = false`. -/
theorem empty_boundary_all_false (pcloud : List Point) (hp : pcloud ≠ []) :
    ∃ out, transfer_labels [] pcloud = Except.ok out ∧ out.length = pcloud.length ∧
      ∀ r ∈ out, r.is_edge = false ∧ r.is_corner = false := by
  refine ⟨_, transfer_labels_eq_ok [] pcloud hp, ?_, ?_⟩
  · rw [show drop_duplicates [] = [] from rfl, buildOutAux_nil_curv pcloud pcloud 0]
    simp
  · rw [show drop_duplicates [] = [] from rfl, buildOutAux_nil_curv pcloud pcloud 0]
    intro r hr
    rcases List.mem_map.mp hr with ⟨p, _, rfl⟩
    exact ⟨rfl, rfl⟩

/-- Witness for C6 at a one-point cloud. -/
theorem empty_boundary_all_false_witness :
    ∃ out, transfer_labels [] [⟨1, 2, 3⟩] = Except.ok out ∧
      out.length = ([⟨1, 2, 3⟩] : List Point).length ∧
      ∀ r ∈ out, r.is_edge = false ∧ r.is_corner = false :=
  empty_boundary_all_false [⟨1, 2, 3⟩] (by decide)

/-- C5: in every successful output of `transfer_labels`, `is_corner = true`
implies `is_edge = true` (no point is marked corner without being marked
edge). -/
theorem corner_implies_edge (curv : List CurvRow) (pcloud : List Point)
    (out : List OutRow) (h : transfer_labels curv pcloud = Except.ok out) :
    ∀ r ∈ out, r.is_corner = true → r.is_edge = true := by
  unfold transfer_labels at h
  by_cases hc : ((drop_duplicates curv).isEmpty = false ∧ pcloud.isEmpty = true)
  · rw [if_pos hc] at h
    cases h
  · rw [if_neg hc] at h
    simp only [Except.ok.injEq] at h
    subst h
    intro r hr hcorner
    rcases mem_buildOutAux _ _ pcloud 0 r hr with ⟨j, p, _, hg⟩
    rcases mem_transferGroup _ _ j p r hg with ⟨_, rfl⟩ | ⟨b, _, rfl⟩
    · exact Bool.noConfusion hcorner
    · rfl

/-- Witness for C5 at a corner boundary point matched to the first of two
cloud points: the matched output row is marked corner, and the theorem forces
its edge flag. -/
theorem corner_implies_edge_witness :
    (⟨some 0, some 0, some 0, some 0, 0, 0, 0, true, true⟩ : OutRow).is_edge = true :=
  corner_implies_edge [⟨0, 2, true, 0, 0, 0⟩] [⟨0, 0, 0⟩, ⟨3, 0, 0⟩]
    [⟨some 0, some 0, some 0, some 0, 0, 0, 0, true, true⟩,
     ⟨none, none, none, none, 3, 0, 0, false, false⟩] rfl
    ⟨some 0, some 0, some 0, some 0, 0, 0, 0, true, true⟩
    (List.mem_cons_self _ _) rfl

/-- C9 counterexample: the claim that every FeatureSet containing an
out-of-range vertex index makes coordinate attachment fail with
`IndexOutOfRange` is false.  Over a 1-vertex mesh, the feature set [[], [5]]
references the out-of-range vertex 5, but the empty first curve makes
`explode()` emit `NaN` and `.astype(int)` raise its casting error before
coordinate attachment runs, so the failure is not `IndexOutOfRange`. -/
theorem mark_edges_empty_curve_error :
    mark_edges_and_corners [⟨0, 0, 0⟩] [[], [5]] = Except.error TDError.intCastingNaN ∧
    TDError.intCastingNaN ≠ TDError.indexOutOfRange :=
  ⟨rfl, by decide⟩

/-- C9 (amended): whenever every curve of the FeatureSet is nonempty and some
curve references a vertex index that is at least the mesh's vertex count,
`mark_edges_and_corners` fails with `IndexOutOfRange` instead of returning a
BoundaryPoint list (with an empty curve present, the explode-and-cast step
fails first with the NaN-to-int casting error). -/
theorem index_out_of_range_no_empty_curves (orig_points : List Point)
    (curves : List (List Nat)) (hne : ∀ c ∈ curves, c ≠ [])
    (c : List Nat) (hc : c ∈ curves) (i : Nat) (hi : i ∈ c)
    (hbig : orig_points.length ≤ i) :
    mark_edges_and_corners orig_points curves = Except.error TDError.indexOutOfRange := by
  have hguard : curves.any (fun c => c.isEmpty) = false := by
    rw [List.any_eq_false]
    intro c2 hc2
    simpa [List.isEmpty_iff] using hne c2 hc2
  have hexp : explode_astype_int curves = Except.ok (explodeCurves curves) := by
    unfold explode_astype_int
    rw [if_neg (by simp [hguard])]
  unfold mark_edges_and_corners
  rw [hexp]
  apply merge_coords_error_of_oob
  rcases mem_explodeAux curves 0 c hc i hi with ⟨cid, hcid⟩
  exact ⟨⟨cid, i, decide (1 < value_counts (explodeCurves curves) i)⟩,
    mark_corner_mem_of_mem _ (cid, i) hcid, hbig⟩

/-- Witness for the amended C9: a one-vertex mesh with a single nonempty
curve referencing the out-of-range vertex 1. -/
theorem index_out_of_range_no_empty_curves_witness :
    mark_edges_and_corners [⟨0, 0, 0⟩] [[0, 1]] = Except.error TDError.indexOutOfRange :=
  index_out_of_range_no_empty_curves [⟨0, 0, 0⟩] [[0, 1]] (by decide) [0, 1] (by decide)
    1 (by decide) (by decide)

/-- C1 counterexample: the claim that the output always has exactly N rows —
"in particular when two distinct BoundaryPoints have the same nearest sampled
point" — is false.  Two boundary points (distinct vertex indices 0 and 1)
whose nearest sampled point is the single cloud point both survive
deduplication, and the right join pairs that cloud row with both of them, so
the output has 2 rows for a 1-point cloud. -/
theorem transfer_labels_collision_row_count :
    Except.map List.length
        (transfer_labels [⟨0, 0, false, 0, 0, 0⟩, ⟨0, 1, false, 1, 0, 0⟩] [⟨0, 0, 0⟩]) =
      Except.ok 2 ∧
    ([⟨0, 0, 0⟩] : List Point).length = 1 :=
  ⟨rfl, rfl⟩

/-- C1 (amended): for every PointCloud of size N ≥ 1 and every BoundaryPoint
list, `transfer_labels` succeeds; every output row's (x, y, z) equals the
coordinates of some input sampled point, and every input sampled point's
coordinates appear on some output row; the output has exactly N rows whenever
no two distinct deduplicated BoundaryPoints share the same nearest sampled
point (when they do, the right join duplicates the shared row instead of
overwriting, and the output exceeds N rows). -/
theorem transfer_labels_rows_and_coords (curv : List CurvRow) (pcloud : List Point)
    (hp : pcloud ≠ []) :
    ∃ out, transfer_labels curv pcloud = Except.ok out ∧
      (∀ r ∈ out, ∃ p ∈ pcloud, r.x = p.x ∧ r.y = p.y ∧ r.z = p.z) ∧
      (∀ p ∈ pcloud, ∃ r ∈ out, r.x = p.x ∧ r.y = p.y ∧ r.z = p.z) ∧
      ((∀ b1 ∈ drop_duplicates curv, ∀ b2 ∈ drop_duplicates curv,
          _transfer_gt_labels b1 pcloud = _transfer_gt_labels b2 pcloud → b1 = b2) →
        out.length = pcloud.length) := by
  refine ⟨_, transfer_labels_eq_ok curv pcloud hp, ?_, ?_, ?_⟩
  · intro r hr
    rcases mem_buildOutAux _ _ pcloud 0 r hr with ⟨j, p, hp2, hg⟩
    rcases mem_transferGroup _ _ j p r hg with ⟨_, rfl⟩ | ⟨b, _, rfl⟩
    · exact ⟨p, hp2, rfl, rfl, rfl⟩
    · exact ⟨p, hp2, rfl, rfl, rfl⟩
  · intro p hp2
    exact exists_mem_buildOutAux _ _ pcloud 0 p hp2
  · intro hinj
    exact buildOutAux_length_of_le_one _ _ (matchesAt_length_le_one curv pcloud hinj) pcloud 0

/-- Witness for the amended C1 at a one-boundary-point, two-point cloud. -/
theorem transfer_labels_rows_and_coords_witness :
    ∃ out, transfer_labels [⟨0, 0, false, 0, 0, 0⟩] [⟨0, 0, 0⟩, ⟨5, 0, 0⟩] = Except.ok out ∧
      (∀ r ∈ out, ∃ p ∈ ([⟨0, 0, 0⟩, ⟨5, 0, 0⟩] : List Point),
        r.x = p.x ∧ r.y = p.y ∧ r.z = p.z) ∧
      (∀ p ∈ ([⟨0, 0, 0⟩, ⟨5, 0, 0⟩] : List Point),
        ∃ r ∈ out, r.x = p.x ∧ r.y = p.y ∧ r.z = p.z) ∧
      ((∀ b1 ∈ drop_duplicates [⟨0, 0, false, 0, 0, 0⟩],
          ∀ b2 ∈ drop_duplicates [⟨0, 0, false, 0, 0, 0⟩],
          _transfer_gt_labels b1 [⟨0, 0, 0⟩, ⟨5, 0, 0⟩] =
            _transfer_gt_labels b2 [⟨0, 0, 0⟩, ⟨5, 0, 0⟩] → b1 = b2) →
        out.length = ([⟨0, 0, 0⟩, ⟨5, 0, 0⟩] : List Point).length) :=
  transfer_labels_rows_and_coords [⟨0, 0, false, 0, 0, 0⟩] [⟨0, 0, 0⟩, ⟨5, 0, 0⟩] (by decide)

/-- C2: per sampled point `p` at position `j` of the cloud, the output rows
produced for that point satisfy: `is_edge` is true iff at least one
deduplicated BoundaryPoint's nearest neighbor is `j`; if no BoundaryPoint
matches `j` the single row for `p` carries `is_edge = false` and
`is_corner = false`; if exactly one BoundaryPoint matches `j`, the single row
carries `is_edge = true` and that BoundaryPoint's `is_corner`. -/
theorem transfer_labels_label_semantics (curv : List CurvRow) (pcloud : List Point)
    (j : Nat) (p : Point) (hj : pcloud[j]? = some p) :
    ∃ out, transfer_labels curv pcloud = Except.ok out ∧
      (∀ r ∈ transferGroup (drop_duplicates curv) pcloud j p, r ∈ out) ∧
      transferGroup (drop_duplicates curv) pcloud j p ≠ [] ∧
      (∀ r ∈ transferGroup (drop_duplicates curv) pcloud j p,
        (r.is_edge = true ↔ ∃ b ∈ drop_duplicates curv, _transfer_gt_labels b pcloud = j)) ∧
      ((¬ ∃ b ∈ drop_duplicates curv, _transfer_gt_labels b pcloud = j) →
        transferGroup (drop_duplicates curv) pcloud j p =
          [⟨none, none, none, none, p.x, p.y, p.z, false, false⟩]) ∧
      (∀ b : CurvRow, matchesAt (drop_duplicates curv) pcloud j = [b] →
        transferGroup (drop_duplicates curv) pcloud j p =
          [⟨some b.curv_id, some b.x, some b.y, some b.z, p.x, p.y, p.z, true,
            b.is_corner⟩]) := by
  have hjlen : j < pcloud.length := (List.getElem?_eq_some.mp hj).1
  have hp : pcloud ≠ [] :=
    List.ne_nil_of_length_pos (Nat.lt_of_le_of_lt (Nat.zero_le j) hjlen)
  have hgetp : pcloud.get ⟨j, hjlen⟩ = p := by
    have h3 := (List.getElem?_eq_some.mp hj).2
    simpa using h3
  refine ⟨_, transfer_labels_eq_ok curv pcloud hp, ?_,
    transferGroup_ne_nil _ _ _ _, ?_, ?_, ?_⟩
  · intro r hr
    apply group_mem_buildOutAux (drop_duplicates curv) pcloud pcloud 0 j hjlen r
    rw [Nat.zero_add, hgetp]
    exact hr
  · intro r hr
    rcases mem_transferGroup _ _ j p r hr with ⟨hnil, rfl⟩ | ⟨b, hb, rfl⟩
    · constructor
      · intro hfalse
        exact Bool.noConfusion hfalse
      · intro hex
        exact absurd hex ((matchesAt_eq_nil_iff _ _ _).mp hnil)
    · constructor
      · intro _
        have hbf := List.mem_filter.mp hb
        refine ⟨b, hbf.1, ?_⟩
        simpa using hbf.2
      · intro _
        rfl
  · intro hnex
    have hnil := (matchesAt_eq_nil_iff (drop_duplicates curv) pcloud j).mpr hnex
    unfold transferGroup
    rw [hnil]
    rfl
  · intro b hbs
    unfold transferGroup
    rw [hbs]
    rfl

/-- Witness for C2 at a corner boundary point matched to cloud position 0. -/
theorem transfer_labels_label_semantics_witness :
    ∃ out, transfer_labels [⟨0, 2, true, 0, 0, 0⟩] [⟨0, 0, 0⟩, ⟨3, 0, 0⟩] = Except.ok out ∧
      (∀ r ∈ transferGroup (drop_duplicates [⟨0, 2, true, 0, 0, 0⟩])
          [⟨0, 0, 0⟩, ⟨3, 0, 0⟩] 0 ⟨0, 0, 0⟩, r ∈ out) ∧
      transferGroup (drop_duplicates [⟨0, 2, true, 0, 0, 0⟩])
        [⟨0, 0, 0⟩, ⟨3, 0, 0⟩] 0 ⟨0, 0, 0⟩ ≠ [] ∧
      (∀ r ∈ transferGroup (drop_duplicates [⟨0, 2, true, 0, 0, 0⟩])
          [⟨0, 0, 0⟩, ⟨3, 0, 0⟩] 0 ⟨0, 0, 0⟩,
        (r.is_edge = true ↔ ∃ b ∈ drop_duplicates [⟨0, 2, true, 0, 0, 0⟩],
          _transfer_gt_labels b [⟨0, 0, 0⟩, ⟨3, 0, 0⟩] = 0)) ∧
      ((¬ ∃ b ∈ drop_duplicates [⟨0, 2, true, 0, 0, 0⟩],
          _transfer_gt_labels b [⟨0, 0, 0⟩, ⟨3, 0, 0⟩] = 0) →
        transferGroup (drop_duplicates [⟨0, 2, true, 0, 0, 0⟩])
          [⟨0, 0, 0⟩, ⟨3, 0, 0⟩] 0 ⟨0, 0, 0⟩ =
          [⟨none, none, none, none, (0 : Int), (0 : Int), (0 : Int), false, false⟩]) ∧
      (∀ b : CurvRow, matchesAt (drop_duplicates [⟨0, 2, true, 0, 0, 0⟩])
          [⟨0, 0, 0⟩, ⟨3, 0, 0⟩] 0 = [b] →
        transferGroup (drop_duplicates [⟨0, 2, true, 0, 0, 0⟩])
          [⟨0, 0, 0⟩, ⟨3, 0, 0⟩] 0 ⟨0, 0, 0⟩ =
          [⟨some b.curv_id, some b.x, some b.y, some b.z, (0 : Int), (0 : Int), (0 : Int),
            true, b.is_corner⟩]) :=
  transfer_labels_label_semantics [⟨0, 2, true, 0, 0, 0⟩] [⟨0, 0, 0⟩, ⟨3, 0, 0⟩]
    0 ⟨0, 0, 0⟩ rfl

/-- C4: in the output of `mark_edges_and_corners`, an entry's `is_corner` is
true iff its vertex index's occurrence count across the flattened
(curve id, vertex index) sequence is strictly greater than 1; consequently,
after deduplication with `drop_duplicates`, every entry whose pre-dedup count
exceeds 1 still has `is_corner = true` (dedup never loses the corner flag). -/
theorem mark_corner_multiplicity (orig_points : List Point) (curves : List (List Nat))
    (rows : List CurvRow)
    (h : mark_edges_and_corners orig_points curves = Except.ok rows) :
    (∀ r ∈ rows, r.is_corner = decide (1 < value_counts (explodeCurves curves) r.idx)) ∧
    (∀ b ∈ drop_duplicates rows, 1 < value_counts (explodeCurves curves) b.idx →
      b.is_corner = true) := by
  have h2 : _merge_coords (_mark_corner (explodeCurves curves)) orig_points =
      Except.ok rows := by
    unfold mark_edges_and_corners explode_astype_int at h
    by_cases hg : curves.any (fun c => c.isEmpty) = true
    · rw [if_pos hg] at h
      simp at h
    · rw [if_neg hg] at h
      exact h
  have hmem : ∀ r ∈ rows,
      r.is_corner = decide (1 < value_counts (explodeCurves curves) r.idx) := by
    intro r hr
    rcases merge_coords_ok_mem _ _ _ h2 r hr with ⟨e, he, hidx, hcor⟩
    rw [hcor, mem_mark_corner _ e he, hidx]
  refine ⟨hmem, ?_⟩
  intro b hb hcount
  rw [hmem b ((dropDupAux_sublist rows []).subset hb)]
  exact decide_eq_true hcount

/-- Witness for C4: curves [[2, 0], [0]] over a 3-vertex mesh; vertex 0 occurs
twice (corner), vertex 2 once. -/
theorem mark_corner_multiplicity_witness :
    (∀ r ∈ ([⟨0, 2, false, 2, 2, 2⟩, ⟨0, 0, true, 0, 0, 0⟩, ⟨1, 0, true, 0, 0, 0⟩] :
        List CurvRow),
      r.is_corner = decide (1 < value_counts (explodeCurves [[2, 0], [0]]) r.idx)) ∧
    (∀ b ∈ drop_duplicates
        [⟨0, 2, false, 2, 2, 2⟩, ⟨0, 0, true, 0, 0, 0⟩, ⟨1, 0, true, 0, 0, 0⟩],
      1 < value_counts (explodeCurves [[2, 0], [0]]) b.idx → b.is_corner = true) :=
  mark_corner_multiplicity [⟨0, 0, 0⟩, ⟨1, 1, 1⟩, ⟨2, 2, 2⟩] [[2, 0], [0]] _ rfl

/-- C8 counterexample: the written file does not have exactly the columns
x, y, z, is_edge, is_corner — the merged frame also keeps curv_id and the
suffixed boundary coordinates x_orig, y_orig, z_orig. -/
theorem output_columns_not_spec_exact :
    "curv_id" ∈ output_columns ∧
    "curv_id" ∉ (["x", "y", "z", "is_edge", "is_corner"] : List String) := by
  constructor
  · simp [output_columns]
  · simp

/-- C8 (amended): the written columnar file's columns are curv_id, is_corner,
x_orig, y_orig, z_orig, x, y, z, is_edge — a strict superset of the claimed
x, y, z, is_edge, is_corner; it has one row per sampled point provided no two
distinct deduplicated BoundaryPoints share a nearest sampled point; and the
filename is the leading token of the feature filename up to the first
underscore followed by `_pcloud_points.parq` (the match fails when the name
has no such token). -/
theorem output_format_amended :
    (∀ c ∈ (["x", "y", "z", "is_edge", "is_corner"] : List String), c ∈ output_columns) ∧
    (∀ name : List Char,
      (name.takeWhile (fun ch => ch != '_')).length ≠ 0 →
      (name.takeWhile (fun ch => ch != '_')).length < name.length →
      _format_pcloud_filename name =
        some (name.takeWhile (fun ch => ch != '_') ++ "_pcloud_points.parq".toList)) ∧
    (∀ (curv : List CurvRow) (pcloud : List Point), pcloud ≠ [] →
      (∀ b1 ∈ drop_duplicates curv, ∀ b2 ∈ drop_duplicates curv,
        _transfer_gt_labels b1 pcloud = _transfer_gt_labels b2 pcloud → b1 = b2) →
      ∃ out, transfer_labels curv pcloud = Except.ok out ∧
        out.length = pcloud.length) := by
  refine ⟨?_, ?_, ?_⟩
  · intro c hc
    simp only [List.mem_cons, List.not_mem_nil, or_false] at hc
    rcases hc with rfl | rfl | rfl | rfl | rfl <;> simp [output_columns]
  · intro name h1 h2
    unfold _format_pcloud_filename
    rw [if_pos ⟨h1, h2⟩]
  · intro curv pcloud hp hinj
    exact ⟨_, transfer_labels_eq_ok curv pcloud hp,
      buildOutAux_length_of_le_one _ _ (matchesAt_length_le_one curv pcloud hinj) pcloud 0⟩

/-- Witness for the amended C8: the column x, a concrete feature filename, and
a one-point cloud with an empty boundary list. -/
theorem output_format_amended_witness :
    "x" ∈ output_columns ∧
    _format_pcloud_filename "00000050_feat.yml".toList =
      some "00000050_pcloud_points.parq".toList ∧
    (∃ out, transfer_labels [] [⟨0, 0, 0⟩] = Except.ok out ∧
      out.length = ([⟨0, 0, 0⟩] : List Point).length) := by
  refine ⟨output_format_amended.1 "x" (by simp), ?_, ?_⟩
  · have h := output_format_amended.2.1 "00000050_feat.yml".toList (by decide) (by decide)
    rw [h]
    decide
  · refine output_format_amended.2.2 [] [⟨0, 0, 0⟩] (by decide) ?_
    intro b1 hb1
    simp [drop_duplicates, dropDupAux] at hb1
